import Mathlib

/-!
Verification development for the ASA-Datafest-2025-Analysis cleaning pipeline
(`Cleaning.py` and `Basic_Analysis/CleaningDeep.py`).

The pandas DataFrame is shallowly embedded as a list of columns; a column is a
name, a dtype tag (pandas dtype at that point of the pipeline) and a list of
cells.  A cell is a rational number, a string, a parsed date, or missing
(pandas NaN/NaT).  Machine floats are modelled by `ℚ`; pandas positional /
label-based indexing is modelled positionally (column labels are assumed
distinct, as they are in the four CSV inputs).
-/

set_option maxRecDepth 4000

/-- A calendar date as produced by `pd.to_datetime`; only the fields the
scripts read (`.year`, `.month`, `.quarter`) plus the day are kept. -/
structure DateVal where
  year : Nat
  month : Nat
  day : Nat
deriving DecidableEq

/-- `Timestamp.quarter`: quarter in 1..4 derived from the month. -/
def quarterOf (d : DateVal) : Nat := (d.month - 1) / 3 + 1

/-- One cell of a DataFrame: numeric value, string, parsed datetime
or missing (NaN/NaT). -/
inductive RVal where
  | num (q : ℚ)
  | txt (s : String)
  | date (d : DateVal)
  | null
deriving DecidableEq

/-- Pandas dtype of a column: numeric, object (strings), or datetime64. -/
inductive Dtype where
  | dnum
  | dobj
  | ddt
deriving DecidableEq

/-- A DataFrame column: label, dtype and cells (one per row). -/
structure Col where
  name : String
  dtype : Dtype
  cells : List RVal
deriving DecidableEq

/-- A DataFrame: a list of equally long columns. -/
abbrev Table := List Col

open RVal Dtype

/-- Number of rows (length of the first column; all columns agree on
well-formed tables). -/
def nrows (t : Table) : Nat :=
  match t with
  | [] => 0
  | c :: _ => c.cells.length

/-- Is the cell a numeric value? -/
def isNumB : RVal → Bool
  | num _ => true
  | _ => false

/-- Is the cell numeric or missing (the only cells a numeric-dtype pandas
column can hold)? -/
def numOrNullB : RVal → Bool
  | num _ => true
  | null => true
  | _ => false

/-- The numeric value of a cell, when present. -/
def numOf : RVal → Option ℚ
  | num q => some q
  | _ => none

/-- The non-missing numeric values of a column (pandas `skipna=True` view). -/
def presents (cells : List RVal) : List ℚ := cells.filterMap numOf

/- ----------------------------------------------------------------- -/
/- String utilities (all on `List Char` so that proofs and `decide`
   reduce without going through `String` internals). -/

/-- Lower-case every character of a string. -/
def lowerStr (s : String) : String := String.mk (s.data.map Char.toLower)

/-- Does `pre` occur at the head of `l`? -/
def hasPre : List Char → List Char → Bool
  | [], _ => true
  | _ :: _, [] => false
  | c :: cs, d :: ds => c = d && hasPre cs ds

/-- Does `needle` occur as a contiguous substring of `hay`? -/
def contSub (needle : List Char) : List Char → Bool
  | [] => needle.isEmpty
  | h :: t => hasPre needle (h :: t) || contSub needle t

/-- Case-insensitive substring test: Python `needle in s.lower()`
(`needle` is given already in lower case). -/
def strContainsLower (s needle : String) : Bool :=
  contSub needle.data (s.data.map Char.toLower)

/-- Value of a list of decimal digits. -/
def natOfDigits (l : List Char) : Nat :=
  l.foldl (fun n c => n * 10 + (c.toNat - 48)) 0

/-- Parse an unsigned decimal literal (`123` or `123.45`), as accepted by
`pd.to_numeric`. -/
def parseNumAux (l : List Char) : Option ℚ :=
  let ip := l.takeWhile Char.isDigit
  let rest := l.dropWhile Char.isDigit
  if ip = [] then none
  else
    match rest with
    | [] => some (natOfDigits ip)
    | '.' :: fp =>
        if fp ≠ [] ∧ fp.all Char.isDigit then
          some ((natOfDigits ip : ℚ) + (natOfDigits fp : ℚ) / (10 ^ fp.length : ℚ))
        else none
    | _ => none

/-- Parse a signed decimal literal. -/
def parseNum (s : String) : Option ℚ :=
  match s.data with
  | '-' :: t => (parseNumAux t).map Neg.neg
  | t => parseNumAux t

/-- Split a character list at every occurrence of `sep`. -/
def splitOnChar (sep : Char) : List Char → List (List Char)
  | [] => [[]]
  | c :: cs =>
      let r := splitOnChar sep cs
      if c = sep then [] :: r
      else
        match r with
        | [] => [[c]]
        | p :: ps => (c :: p) :: ps

/-- Parse an ISO `YYYY-MM-DD` date.  `pd.to_datetime` accepts a much larger
grammar (and interprets raw numbers as epoch offsets); the embedding keeps the
core textual format, which is all the claims depend on: some strings parse,
others fail. -/
def parseDateStr (s : String) : Option DateVal :=
  match splitOnChar '-' s.data with
  | [y, mo, d] =>
      if y ≠ [] ∧ y.all Char.isDigit ∧ mo ≠ [] ∧ mo.all Char.isDigit ∧
          d ≠ [] ∧ d.all Char.isDigit ∧
          1 ≤ natOfDigits mo ∧ natOfDigits mo ≤ 12 ∧
          1 ≤ natOfDigits d ∧ natOfDigits d ≤ 31 then
        some ⟨natOfDigits y, natOfDigits mo, natOfDigits d⟩
      else none
  | _ => none

/-- The datetime a cell coerces to under `pd.to_datetime(..., errors='coerce')`,
if any. -/
def dateOf : RVal → Option DateVal
  | date d => some d
  | txt s => parseDateStr s
  | _ => none

/-- `pd.to_datetime(col, errors='coerce')`: every cell that fails to parse
becomes missing (NaT). -/
def toDatetimeCoerceCells (cells : List RVal) : List RVal :=
  cells.map fun v =>
    match dateOf v with
    | some d => date d
    | none => null

/-- Can `pd.to_numeric` convert this cell (missing cells pass through)? -/
def numCoercibleB : RVal → Bool
  | num _ => true
  | null => true
  | txt s => (parseNum s).isSome
  | date _ => false

/-- The numeric image of a coercible cell. -/
def coerceNum : RVal → RVal
  | num q => num q
  | null => null
  | txt s =>
      match parseNum s with
      | some q => num q
      | none => null
  | date d => date d

/-- `pd.to_numeric(col, errors='ignore')`: if any cell fails to convert the
whole column is returned unchanged; otherwise all cells are converted. -/
def toNumericIgnoreCells (cells : List RVal) : List RVal :=
  if cells.all numCoercibleB then cells.map coerceNum else cells

/-- Column-level `pd.to_numeric(..., errors='ignore')`: on success the dtype
becomes numeric. -/
def toNumericIgnoreCol (c : Col) : Col :=
  if c.cells.all numCoercibleB then
    { c with dtype := dnum, cells := c.cells.map coerceNum }
  else c

/- ----------------------------------------------------------------- -/
/- Order statistics (pandas `median` / `quantile`). -/

/-- Minimum of a list of rationals (0 on the empty list, which the pipeline
never reaches). -/
def minList : List ℚ → ℚ
  | [] => 0
  | x :: xs => xs.foldl min x

/-- Maximum of a list of rationals. -/
def maxList : List ℚ → ℚ
  | [] => 0
  | x :: xs => xs.foldl max x

/-- pandas `Series.median(skipna=True)` on already-extracted values: middle
element of the sorted list, or the mean of the two middle elements. -/
def median (l : List ℚ) : ℚ :=
  let s := l.insertionSort (· ≤ ·)
  let n := s.length
  if n = 0 then 0
  else if n % 2 = 1 then s.getD (n / 2) 0
  else (s.getD (n / 2 - 1) 0 + s.getD (n / 2) 0) / 2

/-- pandas `Series.quantile(q)` with the default linear interpolation:
position `h = q*(n-1)` in the sorted values, interpolating between the
neighbouring order statistics. -/
def quantileQ (l : List ℚ) (q : ℚ) : ℚ :=
  let s := l.insertionSort (· ≤ ·)
  let n := s.length
  if n = 0 then 0
  else
    let h := q * ((n : ℚ) - 1)
    let lo := (h.num / (h.den : Int)).toNat
    let f := h - (lo : ℚ)
    s.getD lo 0 + f * (s.getD (min (lo + 1) (n - 1)) 0 - s.getD lo 0)

/- ----------------------------------------------------------------- -/
/- Row masks. -/

/-- Keep the cells whose mask entry is `true` (boolean indexing of a column). -/
def applyMask (mask : List Bool) (cells : List RVal) : List RVal :=
  ((mask.zip cells).filter (fun p => p.1)).map (fun p => p.2)

/-- Boolean row indexing of a whole DataFrame. -/
def applyMaskTable (mask : List Bool) (t : Table) : Table :=
  t.map fun c => { c with cells := applyMask mask c.cells }

/- ----------------------------------------------------------------- -/
/- `Cleaning.py` : `standardize_dtypes`. -/

/-- The string normalisation applied to object columns:
`.str.strip().str.lower().str.replace(r'[^\w\s]', '', regex=True)`. -/
def cleanStr (s : String) : String :=
  String.mk
    ((((s.data.dropWhile Char.isWhitespace).reverse.dropWhile
          Char.isWhitespace).reverse.map Char.toLower).filter
      fun c => c.isAlphanum || c = '_' || c.isWhitespace)

/-- Cell-level effect of the `.str` pipeline: pandas `.str` accessors return
NaN on non-string elements of an object column. -/
def strCleanCell : RVal → RVal
  | txt s => txt (cleanStr s)
  | _ => null

/-- Column dispatch of `standardize_dtypes`: date-named columns are datetime
coerced, object columns are string-cleaned, everything else goes through
`pd.to_numeric(..., errors='ignore')`.  Note the date test here is only
`'date' in c.lower()` — `'signed'` is not checked. -/
def stdCol (c : Col) : Col :=
  if strContainsLower c.name "date" then
    { c with dtype := ddt, cells := toDatetimeCoerceCells c.cells }
  else if c.dtype = dobj then
    { c with cells := c.cells.map strCleanCell }
  else toNumericIgnoreCol c

/-- `standardize_dtypes(df)`. -/
def standardizeDtypes (t : Table) : Table := t.map stdCol

/- ----------------------------------------------------------------- -/
/- `Cleaning.py` : `get_group_keys` and the grouping keys chosen in `main`. -/

/-- The fixed candidate list of grouping columns. -/
def possibleKeys : List String :=
  ["state", "city", "market", "region", "building_classification", "year_quarter"]

/-- `get_group_keys(df, defaults)`: the candidates present among the columns,
in the fixed order; the defaults only when none is present (Python
`keys or defaults`). -/
def getGroupKeys (cols defaults : List String) : List String :=
  let keys := possibleKeys.filter fun k => cols.contains k
  if keys.isEmpty then defaults else keys

/-- The grouping keys `main` chooses for the unemployment dataset — written
inline there, bypassing `get_group_keys`:
`['state','year'] if {'state','year'}.issubset(unemp.columns) else ['year']`. -/
def unempKeys (cols : List String) : List String :=
  if cols.contains "state" && cols.contains "year" then ["state", "year"]
  else ["year"]

/- ----------------------------------------------------------------- -/
/- `Cleaning.py` : `dynamic_clean_group`. -/

/-- Per-row completeness `g.notnull().mean(axis=1)` at row `i`. -/
def rowComp (t : Table) (i : Nat) : ℚ :=
  ((t.countP fun c => !(c.cells.getD i null == null) : Nat) : ℚ) / (t.length : ℚ)

/-- The list of per-row completeness values. -/
def rList (t : Table) : List ℚ := (List.range (nrows t)).map (rowComp t)

/-- Per-column missingness `g.isnull().mean()` of one column. -/
def missFrac (c : Col) : ℚ :=
  ((c.cells.countP fun v => v == null : Nat) : ℚ) / (c.cells.length : ℚ)

/-- The list of per-column missingness values. -/
def mList (t : Table) : List ℚ := t.map missFrac

/-- `g['year'].iloc[0] if 'year' in g.columns else None`. -/
def yearFirst (t : Table) : Option RVal :=
  (t.find? fun c => c.name == "year").map fun c => c.cells.getD 0 null

/-- Python `year == 2018` (false when the column is absent, the first cell is
missing, or it is a non-numeric value). -/
def is2018 (t : Table) : Bool := yearFirst t == some (num 2018)

/-- The row-keep threshold of `dynamic_clean_group`. -/
def rowThresh (t : Table) : ℚ :=
  if is2018 t then 2/5 else max (1/5) (median (rList t) - 1/10)

/-- The column-drop threshold of `dynamic_clean_group`. -/
def colThresh (t : Table) : ℚ :=
  if is2018 t then 3/5 else min (9/10) (median (mList t) + 1/10)

/-- The boolean mask `r >= row_thresh` over the rows of the group. -/
def keepRowMask (t : Table) : List Bool :=
  (List.range (nrows t)).map fun i => decide (rowThresh t ≤ rowComp t i)

/-- Total order on cells used only to resolve `mode()` ties the way pandas
does (mode values come back sorted; `mode[0]` is the least). -/
def rleB : RVal → RVal → Bool
  | num x, num y => decide (x ≤ y)
  | txt s, txt t => hasPre s.data t.data ||
      (decide (natOfDigits s.data ≤ natOfDigits t.data) && !hasPre t.data s.data)
  | date d, date e =>
      decide (d.year * 10000 + d.month * 100 + d.day ≤
        e.year * 10000 + e.month * 100 + e.day)
  | num _, _ => true
  | _, num _ => false
  | txt _, _ => true
  | _, txt _ => false
  | date _, _ => true
  | _, date _ => false
  | null, null => true

/-- Least element of a list under `rleB`. -/
def minRVal : List RVal → RVal
  | [] => null
  | x :: xs => xs.foldl (fun a b => if rleB b a then b else a) x

/-- `Series.mode()[0]` on the non-missing cells; `none` when the column has no
non-missing cell (empty mode). -/
def modeFirst (cells : List RVal) : Option RVal :=
  let nn := cells.filter fun v => !(v == null)
  if nn.isEmpty then none
  else
    let maxCount := (nn.map fun v => nn.count v).foldl max 0
    some (minRVal (nn.filter fun v => nn.count v == maxCount))

/-- The imputation loop of `dynamic_clean_group`: numeric columns get their
median (a no-op when the column has no value left, `median()` being NaN),
other columns get `mode()[0]`, or `''` when the mode is empty. -/
def fillCol (c : Col) : Col :=
  if c.dtype = dnum then
    if presents c.cells = [] then c
    else { c with cells := c.cells.map fun v => if v = null then num (median (presents c.cells)) else v }
  else
    match modeFirst c.cells with
    | some m => { c with cells := c.cells.map fun v => if v = null then m else v }
    | none => { c with cells := c.cells.map fun v => if v = null then txt "" else v }

/-- `dynamic_clean_group(g)`: row filter against the row threshold, column
drop against the column threshold (both masks computed on the incoming
group), then imputation.  The source drops columns by label; with distinct
labels that coincides with the positional zip used here. -/
def dynamicCleanGroup (g : Table) : Table :=
  let rowFiltered := g.map fun c => { c with cells := applyMask (keepRowMask g) c.cells }
  let colKeep := g.map fun c => decide (missFrac c < colThresh g)
  (((rowFiltered.zip colKeep).filter fun p => p.2).map fun p => p.1).map fillCol

/- ----------------------------------------------------------------- -/
/- `Cleaning.py` : `remove_outliers`. -/

/-- Is the cell a numeric value inside `[lo, hi]`?  A missing cell compares
false, exactly as NaN does in pandas boolean indexing. -/
def cellInB (lo hi : ℚ) : RVal → Bool
  | num q => decide (lo ≤ q) && decide (q ≤ hi)
  | _ => false

/-- The `[q1 - 1.5*iqr, q3 + 1.5*iqr]` bounds of a column's non-missing
values; `none` when there is no value (pandas quantile is NaN then, and the
boolean filter keeps no row at all). -/
def boundsCells (cells : List RVal) : Option (ℚ × ℚ) :=
  let ps := presents cells
  if ps = [] then none
  else
    let q1 := quantileQ ps (1/4)
    let q3 := quantileQ ps (3/4)
    let iqr := q3 - q1
    some (q1 - 3/2 * iqr, q3 + 3/2 * iqr)

/-- One step of the `remove_outliers` loop: filter every row of the current
table against the bounds of column `n` as it stands now. -/
def filterByCol (n : String) (t : Table) : Table :=
  match t.find? fun c => c.name == n with
  | none => t
  | some c =>
      match boundsCells c.cells with
      | none => applyMaskTable (c.cells.map fun _ => false) t
      | some (lo, hi) => applyMaskTable (c.cells.map (cellInB lo hi)) t

/-- The labels of the numeric columns (`df.select_dtypes(include='number')`),
snapshotted before the loop starts, as the Python iterator is. -/
def numericNames (t : Table) : List String :=
  (t.filter fun c => c.dtype = dnum).map Col.name

/-- The `remove_outliers` loop: columns are processed in order, each one
filtering the table produced by the previous ones. -/
def removeOutliersAux : List String → Table → Table
  | [], t => t
  | n :: ns, t => removeOutliersAux ns (filterByCol n t)

/-- `remove_outliers(df)`. -/
def removeOutliers (t : Table) : Table := removeOutliersAux (numericNames t) t

/-- Modelled from the spec wording of C2 (for comparison only): keep a row iff
its value in every numeric column lies within that column's bounds computed
independently on the ORIGINAL table. -/
def keepRowIndep (t : Table) (i : Nat) : Bool :=
  (t.filter fun c => c.dtype = dnum).all fun c =>
    match boundsCells c.cells with
    | none => false
    | some (lo, hi) => cellInB lo hi (c.cells.getD i null)

/-- Modelled from the spec wording of C2 (for comparison only): the
independent-bounds outlier filter. -/
def removeOutliersIndep (t : Table) : Table :=
  applyMaskTable ((List.range (nrows t)).map (keepRowIndep t)) t

/- ----------------------------------------------------------------- -/
/- `Cleaning.py` : `normalize`. -/

/-- The min-max rescaling map on cells: numeric values are rescaled, missing
cells stay missing (NaN arithmetic). -/
def normMap (mi mx : ℚ) : RVal → RVal
  | num x => num ((x - mi) / (mx - mi))
  | v => v

/-- `normalize` on the cells of one numeric column: `(x - min)/(max - min)`
when the extrema differ, the scalar assignment `df[c] = 0.0` (overwriting
missing cells too) when they coincide; a column with no value keeps its NaNs
(NaN extrema propagate). -/
def normCells (cells : List RVal) : List RVal :=
  if presents cells = [] then cells
  else if minList (presents cells) = maxList (presents cells) then
    cells.map fun _ => num 0
  else cells.map (normMap (minList (presents cells)) (maxList (presents cells)))

/-- `normalize` on one column: only numeric-dtype columns are touched. -/
def normCol (c : Col) : Col :=
  if c.dtype = dnum then { c with cells := normCells c.cells } else c

/-- `normalize(df)` (named `normalizeTable` as Mathlib already has `normalize`). -/
def normalizeTable (t : Table) : Table := t.map normCol

/- ----------------------------------------------------------------- -/
/- `CleaningDeep.py` : `parse_date_columns`. -/

/-- The date-likeness test of `parse_date_columns`:
`any(k in c.lower() for k in ['date','signed'])`. -/
def dateLikeDeepB (s : String) : Bool :=
  ["date", "signed"].any fun k => strContainsLower s k

/-- `parse_date_columns(df)`: datetime-coerce every column whose name
contains `date` or `signed`. -/
def parseDateCols (t : Table) : Table :=
  t.map fun c =>
    if dateLikeDeepB c.name then
      { c with dtype := ddt, cells := toDatetimeCoerceCells c.cells }
    else c

/- ----------------------------------------------------------------- -/
/- `CleaningDeep.py` : `fill_year_qtr_month_from_date`. -/

/-- The datetime64 columns of the table, in column order. -/
def dtColsOf (t : Table) : Table := t.filter fun c => c.dtype = ddt

/-- The first valid date of row `i`, scanning the datetime columns in column
order (the `for c in dt_cols` inner loop). -/
def firstDateAt (t : Table) (i : Nat) : Option DateVal :=
  ((dtColsOf t).filterMap fun c => dateOf (c.cells.getD i null)).head?

/-- The per-row fill of one of the year/quarter/month columns: a missing cell
is replaced by field `fld` of the row's first valid date when there is one.
(The source walks the rows mutating `df.at[idx, col]`; each row only touches
itself, so the loop is this per-cell map.) -/
def fillGo (t : Table) (fld : DateVal → Nat) : Nat → List RVal → List RVal
  | _, [] => []
  | i, v :: vs =>
      (if v = null then
        match firstDateAt t i with
        | some d => num (fld d)
        | none => v
      else v) :: fillGo t fld (i + 1) vs

/-- Integer truncation of a rational (numpy `astype(int)` truncates toward
zero; `Int.tdiv` is the toward-zero division). -/
def ratTrunc (q : ℚ) : ℚ := ((Int.tdiv q.num (q.den : Int) : Int) : ℚ)

/-- `df[col].astype(int, errors='ignore')`: converted only when every cell
converts, otherwise returned unchanged. -/
def astypeIntIgnoreCells (cells : List RVal) : List RVal :=
  if cells.all isNumB then
    cells.map fun v =>
      match v with
      | num q => num (ratTrunc q)
      | v => v
  else cells

/-- The whole treatment a year/quarter/month column receives when datetime
columns exist: per-row fill from the first date, then `fillna(0)`, then
`astype(int, errors='ignore')`. -/
def yqmTransform (t : Table) (fld : DateVal → Nat) (cells : List RVal) : List RVal :=
  astypeIntIgnoreCells
    ((fillGo t fld 0 cells).map fun v => if v = null then num 0 else v)

/-- Column dispatch of `fill_year_qtr_month_from_date` (exact, case-sensitive
names, as in the source). -/
def yqmCol (t : Table) (c : Col) : Col :=
  if c.name = "year" then { c with cells := yqmTransform t (fun d => d.year) c.cells }
  else if c.name = "quarter" then { c with cells := yqmTransform t quarterOf c.cells }
  else if c.name = "month" then { c with cells := yqmTransform t (fun d => d.month) c.cells }
  else c

/-- `fill_year_qtr_month_from_date(df)`: note the early return — with no
datetime column the function does nothing at all (no 0-fill, no `astype`). -/
def fillYearQtrMonth (t : Table) : Table :=
  if dtColsOf t = [] then t else t.map (yqmCol t)

/- ----------------------------------------------------------------- -/
/- `CleaningDeep.py` : `minimal_clean_with_dates` (the in-memory transform
   between `read_csv` and `to_csv`). -/

/-- All rows of the table, for duplicate detection. -/
def rowsOf (t : Table) : List (List RVal) :=
  (List.range (nrows t)).map fun i => t.map fun c => c.cells.getD i null

/-- Mask marking the first occurrence of each row (later duplicates `false`);
pandas `drop_duplicates` keeps first occurrences and treats NaNs as equal. -/
def firstOccurGo : List (List RVal) → List (List RVal) → List Bool
  | _, [] => []
  | seen, r :: rs => (!seen.contains r) :: firstOccurGo (r :: seen) rs

/-- `df.drop_duplicates()`. -/
def dropDupRows (t : Table) : Table :=
  applyMaskTable (firstOccurGo [] (rowsOf t)) t

/-- The protected time columns of step 5 (compared lower-cased there). -/
def protectedNames : List String := ["year", "quarter", "month"]

/-- Fill the missing cells of a column with the median of its values; a no-op
when the column has no value (median NaN). -/
def fillMedianCells (cells : List RVal) : List RVal :=
  if presents cells = [] then cells
  else cells.map fun v => if v = null then num (median (presents cells)) else v

/-- Step 5 of `minimal_clean_with_dates`: median-fill every numeric column
whose lower-cased name is not year/quarter/month. -/
def stage5col (c : Col) : Col :=
  if c.dtype = dnum ∧ ¬ protectedNames.contains (lowerStr c.name) then
    { c with cells := fillMedianCells c.cells }
  else c

/-- Step 6: fill missing cells of object columns with the string `'missing'`. -/
def stage6col (c : Col) : Col :=
  if c.dtype = dobj then
    { c with cells := c.cells.map fun v => if v = null then txt "missing" else v }
  else c

/-- The final loop: `pd.to_numeric(df[col], errors='ignore',
downcast='integer')` on the exact names `year`, `quarter`, `month`
(`downcast` only changes the machine representation, invisible in `ℚ`). -/
def stage7col (c : Col) : Col :=
  if protectedNames.contains c.name then toNumericIgnoreCol c else c

/-- `minimal_clean_with_dates`: drop duplicate rows, parse date-like columns,
fill year/quarter/month from dates, median-fill numeric columns, fill object
columns, and re-coerce the time columns. -/
def minimalClean (t : Table) : Table :=
  ((((fillYearQtrMonth (parseDateCols (dropDupRows t))).map
        stage5col).map stage6col).map stage7col)

/- ----------------------------------------------------------------- -/
/- Auxiliary definitions used only to state theorems. -/

/-- The field of the date used to fill a given time column. -/
def yqmField (n : String) : DateVal → Nat :=
  if n = "quarter" then quarterOf
  else if n = "month" then fun d => d.month
  else fun d => d.year

/-- The cell value `fill_year_qtr_month_from_date` produces at row `i` of a
year/quarter/month column (when datetime columns exist): present values are
integer-truncated, missing ones come from the row's first valid date or 0. -/
def specFillVal (t : Table) (fld : DateVal → Nat) (i : Nat) : RVal → RVal
  | num q => num (ratTrunc q)
  | _ =>
      match firstDateAt t i with
      | some d => num ((fld d : ℚ))
      | none => num 0

/- ----------------------------------------------------------------- -/
/- Concrete tables used by counterexamples and witnesses. -/

/-- Two numeric columns on which sequential and independent outlier
filtering disagree. -/
def tblOutlier : Table :=
  [⟨"a", dnum, [num 0, num 0, num 0, num 0, num 100]⟩,
   ⟨"b", dnum, [num 0, num 0, num 0, num 10, num 1000]⟩]

/-- The `a` column of `tblOutlier` after the sequential outlier filter. -/
def cOutA : Col := ⟨"a", dnum, [num 0, num 0, num 0]⟩

/-- A table whose `pay` column is entirely missing. -/
def tblAllNull : Table :=
  [⟨"id", dnum, [num 1, num 2]⟩, ⟨"pay", dnum, [null, null]⟩]

/-- A one-column table with one missing value. -/
def tblPay : Table := [⟨"pay", dnum, [num 1, null]⟩]

/-- The `pay` column of `minimalClean tblPay`. -/
def cPay : Col := ⟨"pay", dnum, [num 1, num 1]⟩

/-- A 2018 group for the threshold witness. -/
def gYr : Table :=
  [⟨"year", dnum, [num 2018, num 2018]⟩, ⟨"v", dnum, [num 1, null]⟩]

/-- A table with one datetime column and a partially missing year column. -/
def tblDate : Table :=
  [⟨"sale_date", ddt, [date ⟨2020, 5, 1⟩, null]⟩,
   ⟨"year", dnum, [null, num 2019]⟩]

/-- The year column of `tblDate`. -/
def cYear : Col := ⟨"year", dnum, [null, num 2019]⟩

/-- A numeric column for the min-max witness. -/
def cA : Col := ⟨"a", dnum, [num 1, num 3]⟩

/-- A small mixed table for the idempotence witness. -/
def tblNorm : Table :=
  [⟨"a", dnum, [num 1, num 3]⟩, ⟨"b", dobj, [txt "u", null]⟩]

/- ================================================================= -/
/- Helper lemmas. -/

theorem foldl_min_le_init (l : List ℚ) : ∀ a : ℚ, l.foldl min a ≤ a := by
  induction l with
  | nil => intro a; simp
  | cons x xs ih =>
      intro a
      calc (x :: xs).foldl min a = xs.foldl min (min a x) := rfl
        _ ≤ min a x := ih _
        _ ≤ a := min_le_left _ _

theorem foldl_min_le_mem {x : ℚ} {l : List ℚ} (h : x ∈ l) :
    ∀ a : ℚ, l.foldl min a ≤ x := by
  induction l with
  | nil => cases h
  | cons y ys ih =>
      intro a
      rcases List.mem_cons.mp h with rfl | h'
      · calc (x :: ys).foldl min a = ys.foldl min (min a x) := rfl
          _ ≤ min a x := foldl_min_le_init _ _
          _ ≤ x := min_le_right _ _
      · exact ih h' _

theorem minList_le {x : ℚ} {l : List ℚ} (h : x ∈ l) : minList l ≤ x := by
  cases l with
  | nil => cases h
  | cons y ys =>
      rcases List.mem_cons.mp h with rfl | h'
      · exact foldl_min_le_init ys x
      · exact foldl_min_le_mem h' y

theorem init_le_foldl_max (l : List ℚ) : ∀ a : ℚ, a ≤ l.foldl max a := by
  induction l with
  | nil => intro a; simp
  | cons x xs ih =>
      intro a
      calc a ≤ max a x := le_max_left _ _
        _ ≤ xs.foldl max (max a x) := ih _
        _ = (x :: xs).foldl max a := rfl

theorem mem_le_foldl_max {x : ℚ} {l : List ℚ} (h : x ∈ l) :
    ∀ a : ℚ, x ≤ l.foldl max a := by
  induction l with
  | nil => cases h
  | cons y ys ih =>
      intro a
      rcases List.mem_cons.mp h with rfl | h'
      · calc x ≤ max a x := le_max_right _ _
          _ ≤ ys.foldl max (max a x) := init_le_foldl_max _ _
          _ = (x :: ys).foldl max a := rfl
      · exact ih h' _

theorem le_maxList {x : ℚ} {l : List ℚ} (h : x ∈ l) : x ≤ maxList l := by
  cases l with
  | nil => cases h
  | cons y ys =>
      rcases List.mem_cons.mp h with rfl | h'
      · exact init_le_foldl_max ys x
      · exact mem_le_foldl_max h' y

theorem minList_le_maxList {l : List ℚ} (h : l ≠ []) : minList l ≤ maxList l := by
  cases l with
  | nil => exact absurd rfl h
  | cons y ys =>
      exact le_trans (minList_le (List.mem_cons_self y ys))
        (le_maxList (List.mem_cons_self y ys))

theorem foldl_min_choice (l : List ℚ) : ∀ a : ℚ, l.foldl min a = a ∨ l.foldl min a ∈ l := by
  induction l with
  | nil => intro a; exact Or.inl rfl
  | cons x xs ih =>
      intro a
      rcases ih (min a x) with h | h
      · rcases min_choice a x with hm | hm
        · exact Or.inl (by rw [show (x :: xs).foldl min a = xs.foldl min (min a x) from rfl, h, hm])
        · refine Or.inr (List.mem_cons.mpr (Or.inl ?_))
          rw [show (x :: xs).foldl min a = xs.foldl min (min a x) from rfl, h, hm]
      · exact Or.inr (List.mem_cons.mpr (Or.inr h))

theorem minList_mem {l : List ℚ} (h : l ≠ []) : minList l ∈ l := by
  cases l with
  | nil => exact absurd rfl h
  | cons x xs =>
      rcases foldl_min_choice xs x with h1 | h1
      · rw [show minList (x :: xs) = xs.foldl min x from rfl, h1]
        exact List.mem_cons_self _ _
      · exact List.mem_cons.mpr (Or.inr h1)

theorem foldl_max_choice (l : List ℚ) : ∀ a : ℚ, l.foldl max a = a ∨ l.foldl max a ∈ l := by
  induction l with
  | nil => intro a; exact Or.inl rfl
  | cons x xs ih =>
      intro a
      rcases ih (max a x) with h | h
      · rcases max_choice a x with hm | hm
        · exact Or.inl (by rw [show (x :: xs).foldl max a = xs.foldl max (max a x) from rfl, h, hm])
        · refine Or.inr (List.mem_cons.mpr (Or.inl ?_))
          rw [show (x :: xs).foldl max a = xs.foldl max (max a x) from rfl, h, hm]
      · exact Or.inr (List.mem_cons.mpr (Or.inr h))

theorem maxList_mem {l : List ℚ} (h : l ≠ []) : maxList l ∈ l := by
  cases l with
  | nil => exact absurd rfl h
  | cons x xs =>
      rcases foldl_max_choice xs x with h1 | h1
      · rw [show maxList (x :: xs) = xs.foldl max x from rfl, h1]
        exact List.mem_cons_self _ _
      · exact List.mem_cons.mpr (Or.inr h1)

theorem minList_eq_of_const {l : List ℚ} {a : ℚ} (hne : l ≠ [])
    (h : ∀ x ∈ l, x = a) : minList l = a := h _ (minList_mem hne)

theorem maxList_eq_of_const {l : List ℚ} {a : ℚ} (hne : l ≠ [])
    (h : ∀ x ∈ l, x = a) : maxList l = a := h _ (maxList_mem hne)

theorem foldl_min_map {g : ℚ → ℚ} (hg : Monotone g) (l : List ℚ) :
    ∀ a : ℚ, (l.map g).foldl min (g a) = g (l.foldl min a) := by
  induction l with
  | nil => intro a; rfl
  | cons x xs ih =>
      intro a
      show (xs.map g).foldl min (min (g a) (g x)) = g (xs.foldl min (min a x))
      rw [← Monotone.map_min hg, ih]

theorem foldl_max_map {g : ℚ → ℚ} (hg : Monotone g) (l : List ℚ) :
    ∀ a : ℚ, (l.map g).foldl max (g a) = g (l.foldl max a) := by
  induction l with
  | nil => intro a; rfl
  | cons x xs ih =>
      intro a
      show (xs.map g).foldl max (max (g a) (g x)) = g (xs.foldl max (max a x))
      rw [← Monotone.map_max hg, ih]

theorem minList_map {g : ℚ → ℚ} (hg : Monotone g) {l : List ℚ} (h : l ≠ []) :
    minList (l.map g) = g (minList l) := by
  cases l with
  | nil => exact absurd rfl h
  | cons x xs => exact foldl_min_map hg xs x

theorem maxList_map {g : ℚ → ℚ} (hg : Monotone g) {l : List ℚ} (h : l ≠ []) :
    maxList (l.map g) = g (maxList l) := by
  cases l with
  | nil => exact absurd rfl h
  | cons x xs => exact foldl_max_map hg xs x

theorem presents_map_normMap (mi mx : ℚ) (cells : List RVal) :
    presents (cells.map (normMap mi mx))
      = (presents cells).map fun x => (x - mi) / (mx - mi) := by
  induction cells with
  | nil => rfl
  | cons v vs ih =>
      cases v <;>
        simp only [presents, List.map_cons, List.filterMap_cons, normMap, numOf] <;>
        simp only [presents] at ih <;> simp [ih]

theorem presents_map_const_zero (cells : List RVal) :
    presents (cells.map fun _ => num 0) = cells.map fun _ => (0 : ℚ) := by
  induction cells with
  | nil => rfl
  | cons v vs ih =>
      simp only [presents, List.map_cons, List.filterMap_cons, numOf]
      simp only [presents] at ih
      rw [ih]

theorem presents_ne_nil_of_cells {cells : List RVal} (h : presents cells ≠ []) :
    cells ≠ [] := by
  intro hc
  rw [hc] at h
  exact h rfl

theorem normCells_idem (cells : List RVal) : normCells (normCells cells) = normCells cells := by
  by_cases hp : presents cells = []
  · have h1 : normCells cells = cells := by rw [normCells, if_pos hp]
    rw [h1]
    exact h1
  · by_cases he : minList (presents cells) = maxList (presents cells)
    · have h1 : normCells cells = cells.map fun _ => num 0 := by
        rw [normCells, if_neg hp, if_pos he]
      have hc : cells ≠ [] := presents_ne_nil_of_cells hp
      have hp2 : presents (cells.map fun _ => num 0) = cells.map fun _ => (0 : ℚ) :=
        presents_map_const_zero cells
      have hne2 : presents (cells.map fun _ => num 0) ≠ [] := by
        rw [hp2]
        simpa using hc
      have hconst : ∀ x ∈ presents (cells.map fun _ => num 0), x = 0 := by
        rw [hp2]
        intro x hx
        rcases List.mem_map.mp hx with ⟨a, _, ha⟩
        exact ha.symm
      have hmin : minList (presents (cells.map fun _ => num 0)) = 0 :=
        minList_eq_of_const hne2 hconst
      have hmax : maxList (presents (cells.map fun _ => num 0)) = 0 :=
        maxList_eq_of_const hne2 hconst
      rw [h1, normCells, if_neg hne2, if_pos (hmin.trans hmax.symm), List.map_map]
      rfl
    · have hmm : minList (presents cells) ≤ maxList (presents cells) :=
        minList_le_maxList hp
      have hlt : minList (presents cells) < maxList (presents cells) :=
        lt_of_le_of_ne hmm he
      have hpos : (0 : ℚ) < maxList (presents cells) - minList (presents cells) :=
        sub_pos.mpr hlt
      set mi := minList (presents cells) with hmi
      set mx := maxList (presents cells) with hmx
      have h1 : normCells cells = cells.map (normMap mi mx) := by
        rw [normCells, if_neg hp, if_neg he]
      have hg : Monotone fun x : ℚ => (x - mi) / (mx - mi) := by
        intro a b hab
        exact (div_le_div_iff_of_pos_right hpos).mpr (sub_le_sub_right hab mi)
      have hps2 : presents (cells.map (normMap mi mx))
          = (presents cells).map fun x => (x - mi) / (mx - mi) :=
        presents_map_normMap mi mx cells
      have hne2 : presents (cells.map (normMap mi mx)) ≠ [] := by
        rw [hps2]
        simpa using hp
      have hmin2 : minList (presents (cells.map (normMap mi mx))) = 0 := by
        rw [hps2, minList_map hg hp, ← hmi, sub_self, zero_div]
      have hmax2 : maxList (presents (cells.map (normMap mi mx))) = 1 := by
        rw [hps2, maxList_map hg hp, ← hmx, div_self (ne_of_gt hpos)]
      rw [h1, normCells, if_neg hne2, if_neg (by rw [hmin2, hmax2]; norm_num),
        hmin2, hmax2, List.map_map]
      refine List.map_congr_left ?_
      intro v _
      cases v <;> simp [normMap, Function.comp]

theorem normCol_idem (c : Col) : normCol (normCol c) = normCol c := by
  by_cases h : c.dtype = dnum
  · simp [normCol, h, normCells_idem]
  · simp [normCol, h]

theorem applyMask_nil (mask : List Bool) : applyMask mask [] = [] := by
  cases mask <;> rfl

theorem applyMask_cons (b : Bool) (bs : List Bool) (v : RVal) (vs : List RVal) :
    applyMask (b :: bs) (v :: vs)
      = if b then v :: applyMask bs vs else applyMask bs vs := by
  cases b <;> simp [applyMask, List.filter_cons]

theorem applyMask_sublist (mask : List Bool) :
    ∀ cells : List RVal, (applyMask mask cells).Sublist cells := by
  induction mask with
  | nil => intro cells; simp [applyMask]
  | cons b bs ih =>
      intro cells
      cases cells with
      | nil => rw [applyMask_nil]
      | cons v vs =>
          rw [applyMask_cons]
          cases b with
          | true => simpa using List.Sublist.cons₂ v (ih vs)
          | false => simpa using List.Sublist.cons v (ih vs)

theorem mem_applyMask_map_bounds (lo hi : ℚ) :
    ∀ (cells : List RVal) (q : ℚ),
      num q ∈ applyMask (cells.map (cellInB lo hi)) cells → lo ≤ q ∧ q ≤ hi := by
  intro cells
  induction cells with
  | nil => intro q h; rw [applyMask_nil] at h; cases h
  | cons v vs ih =>
      intro q h
      rw [List.map_cons, applyMask_cons] at h
      cases hb : cellInB lo hi v with
      | false =>
          rw [hb] at h
          simp only [if_neg Bool.false_ne_true] at h
          exact ih q h
      | true =>
          rw [hb] at h
          simp only [if_pos rfl] at h
          rcases List.mem_cons.mp h with heq | h'
          · cases v with
            | num x =>
                cases heq
                simp only [cellInB, Bool.and_eq_true, decide_eq_true_eq] at hb
                exact hb
            | txt s => cases hb
            | date d => cases hb
            | null => cases hb
          · exact ih q h'

theorem zip_filter_map_eq (f : Col → Col) (p : Col → Bool) :
    ∀ l : List Col,
      (((l.map f).zip (l.map p)).filter (fun q => q.2)).map (fun q => q.1)
        = (l.filter p).map f := by
  intro l
  induction l with
  | nil => rfl
  | cons a as ih =>
      cases hp : p a <;>
        simp [List.zip_cons_cons, List.filter_cons, hp, ih]

theorem fillCol_name (c : Col) : (fillCol c).name = c.name := by
  unfold fillCol
  split
  · split <;> rfl
  · split <;> rfl

theorem dynamicCleanGroup_eq (g : Table) :
    dynamicCleanGroup g =
      ((g.filter fun c => decide (missFrac c < colThresh g)).map
          fun c => { c with cells := applyMask (keepRowMask g) c.cells }).map fillCol :=
  congrArg (List.map fillCol)
    (zip_filter_map_eq (fun c => { c with cells := applyMask (keepRowMask g) c.cells })
      (fun c => decide (missFrac c < colThresh g)) g)

theorem normCol_name (c : Col) : (normCol c).name = c.name := by
  unfold normCol
  split <;> rfl

theorem map_name_eq {f : Col → Col} (hf : ∀ c, (f c).name = c.name) (u : Table) :
    (u.map f).map Col.name = u.map Col.name := by
  induction u with
  | nil => rfl
  | cons c cs ih => simp [hf, ih]

theorem toNumericIgnoreCol_name (c : Col) : (toNumericIgnoreCol c).name = c.name := by
  unfold toNumericIgnoreCol
  split <;> rfl

theorem stage5col_name (c : Col) : (stage5col c).name = c.name := by
  unfold stage5col
  split <;> rfl

theorem stage5col_dtype (c : Col) : (stage5col c).dtype = c.dtype := by
  unfold stage5col
  split <;> rfl

theorem stage6col_name (c : Col) : (stage6col c).name = c.name := by
  unfold stage6col
  split <;> rfl

theorem stage6col_dtype (c : Col) : (stage6col c).dtype = c.dtype := by
  unfold stage6col
  split <;> rfl

theorem stage7col_name (c : Col) : (stage7col c).name = c.name := by
  unfold stage7col
  split
  · exact toNumericIgnoreCol_name c
  · rfl

theorem yqmCol_name (t : Table) (c : Col) : (yqmCol t c).name = c.name := by
  unfold yqmCol
  split
  · rfl
  split
  · rfl
  split
  · rfl
  · rfl

theorem parseDateCols_name (t : Table) :
    (parseDateCols t).map Col.name = t.map Col.name := by
  unfold parseDateCols
  exact map_name_eq (fun c => by split <;> rfl) t

theorem fillYearQtrMonth_name (t : Table) :
    (fillYearQtrMonth t).map Col.name = t.map Col.name := by
  unfold fillYearQtrMonth
  split
  · rfl
  · exact map_name_eq (yqmCol_name t) t

theorem dropDupRows_name (t : Table) :
    (dropDupRows t).map Col.name = t.map Col.name := by
  unfold dropDupRows applyMaskTable
  exact @map_name_eq
    (fun c => { c with cells := applyMask (firstOccurGo [] (rowsOf t)) c.cells })
    (fun c => rfl) t

theorem mem_applyMaskTable {mask : List Bool} {t : Table} {c : Col}
    (h : c ∈ applyMaskTable mask t) :
    ∃ c₀ ∈ t, c₀.name = c.name ∧ c₀.dtype = c.dtype ∧ c.cells.Sublist c₀.cells := by
  rcases List.mem_map.mp h with ⟨c₀, hc₀, rfl⟩
  exact ⟨c₀, hc₀, rfl, rfl, applyMask_sublist mask c₀.cells⟩

theorem mem_filterByCol {n : String} {t : Table} {c : Col} (h : c ∈ filterByCol n t) :
    ∃ c₀ ∈ t, c₀.name = c.name ∧ c₀.dtype = c.dtype ∧ c.cells.Sublist c₀.cells := by
  unfold filterByCol at h
  split at h
  · exact ⟨c, h, rfl, rfl, List.Sublist.refl _⟩
  · split at h
    · exact mem_applyMaskTable h
    · exact mem_applyMaskTable h

theorem removeOutliersAux_mem :
    ∀ (ns : List String) (t : Table) (c : Col), c ∈ removeOutliersAux ns t →
      ∃ c₀ ∈ t, c₀.name = c.name ∧ c₀.dtype = c.dtype ∧ c.cells.Sublist c₀.cells := by
  intro ns
  induction ns with
  | nil => exact fun t c hc => ⟨c, hc, rfl, rfl, List.Sublist.refl _⟩
  | cons n ns ih =>
      intro t c hc
      rcases ih (filterByCol n t) c hc with ⟨c₁, hc₁, hn, hd, hs⟩
      rcases mem_filterByCol hc₁ with ⟨c₀, hc₀, hn0, hd0, hs0⟩
      exact ⟨c₀, hc₀, hn0.trans hn, hd0.trans hd, hs.trans hs0⟩

theorem fillGo_length (t : Table) (fld : DateVal → Nat) :
    ∀ (cells : List RVal) (s : Nat), (fillGo t fld s cells).length = cells.length := by
  intro cells
  induction cells with
  | nil => intro s; rfl
  | cons v vs ih => intro s; simp [fillGo, ih (s + 1)]

theorem fillGo_get? (t : Table) (fld : DateVal → Nat) :
    ∀ (cells : List RVal) (s i : Nat),
      (fillGo t fld s cells).get? i = (cells.get? i).map fun v =>
        if v = null then
          match firstDateAt t (s + i) with
          | some d => num (fld d)
          | none => v
        else v := by
  intro cells
  induction cells with
  | nil => intro s i; rfl
  | cons v vs ih =>
      intro s i
      cases i with
      | zero => simp [fillGo]
      | succ j =>
          show (fillGo t fld (s + 1) vs).get? j = _
          have he : s + (j + 1) = s + 1 + j := by omega
          rw [he]
          simp only [List.get?_cons_succ]
          exact ih (s + 1) j

theorem fillGo_numOrNull (t : Table) (fld : DateVal → Nat) :
    ∀ (cells : List RVal) (s : Nat), (∀ v ∈ cells, numOrNullB v = true) →
      ∀ u ∈ fillGo t fld s cells, numOrNullB u = true := by
  intro cells
  induction cells with
  | nil => intro s _ u hu; cases hu
  | cons v vs ih =>
      intro s h u hu
      rcases List.mem_cons.mp hu with rfl | hu'
      · by_cases hv : v = null
        · subst hv
          cases hf : firstDateAt t s <;> simp [hf, numOrNullB]
        · rw [if_neg hv]
          exact h v (List.mem_cons_self _ _)
      · exact ih (s + 1) (fun w hw => h w (List.mem_cons_of_mem _ hw)) u hu'

theorem ratTrunc_natCast (n : Nat) : ratTrunc ((n : ℚ)) = (n : ℚ) := by
  unfold ratTrunc
  rw [Rat.num_natCast, Rat.den_natCast]
  simp [Int.tdiv_one]

theorem yqmStep_all_num (t : Table) (fld : DateVal → Nat) (cells : List RVal)
    (hwf : ∀ v ∈ cells, numOrNullB v = true) :
    ((fillGo t fld 0 cells).map fun v => if v = null then num 0 else v).all isNumB = true := by
  rw [List.all_eq_true]
  intro u' hu'
  rcases List.mem_map.mp hu' with ⟨u, hu, rfl⟩
  have hn := fillGo_numOrNull t fld cells 0 hwf u hu
  cases u with
  | num q => simp [isNumB]
  | null => simp [isNumB]
  | txt s => cases hn
  | date d => cases hn

theorem ratTrunc_zero : ratTrunc 0 = 0 := by
  unfold ratTrunc
  norm_num

theorem yqmTransform_get? (t : Table) (fld : DateVal → Nat) (cells : List RVal)
    (hwf : ∀ v ∈ cells, numOrNullB v = true) (i : Nat) :
    (yqmTransform t fld cells).get? i = (cells.get? i).map (specFillVal t fld i) := by
  unfold yqmTransform
  rw [astypeIntIgnoreCells, if_pos (yqmStep_all_num t fld cells hwf)]
  rw [List.get?_map, List.get?_map, fillGo_get? t fld cells 0 i, Nat.zero_add]
  cases hv : cells.get? i with
  | none => rfl
  | some v =>
      have hwfv := hwf v (List.get?_mem hv)
      cases v with
      | num q => simp [specFillVal]
      | null =>
          cases hd : firstDateAt t i with
          | none => simp [hd, specFillVal, ratTrunc_zero]
          | some d => simp [hd, specFillVal, ratTrunc_natCast]
      | txt s => cases hwfv
      | date d => cases hwfv

theorem astypeIntIgnoreCells_length (l : List RVal) :
    (astypeIntIgnoreCells l).length = l.length := by
  unfold astypeIntIgnoreCells
  split
  · exact List.length_map _ _
  · rfl

theorem yqmTransform_length (t : Table) (fld : DateVal → Nat) (cells : List RVal) :
    (yqmTransform t fld cells).length = cells.length := by
  unfold yqmTransform
  rw [astypeIntIgnoreCells_length, List.length_map, fillGo_length]

theorem yqmTransform_ne_null (t : Table) (fld : DateVal → Nat) (cells : List RVal)
    (hwf : ∀ v ∈ cells, numOrNullB v = true) :
    ∀ v ∈ yqmTransform t fld cells, v ≠ null := by
  intro v hv
  unfold yqmTransform at hv
  rw [astypeIntIgnoreCells, if_pos (yqmStep_all_num t fld cells hwf)] at hv
  rcases List.mem_map.mp hv with ⟨u, hu, rfl⟩
  have hn : isNumB u = true :=
    List.all_eq_true.mp (yqmStep_all_num t fld cells hwf) u hu
  cases u with
  | num q => simp
  | null => cases hn
  | txt s => cases hn
  | date d => cases hn

theorem lower_protected {s : String} (h : protectedNames.contains s = true) :
    protectedNames.contains (lowerStr s) = true := by
  have h' : s = "year" ∨ s = "quarter" ∨ s = "month" := by
    simpa [protectedNames] using h
  rcases h' with rfl | rfl | rfl <;> decide

theorem not_protected_of_lower {s : String}
    (h : protectedNames.contains (lowerStr s) = false) :
    protectedNames.contains s = false := by
  cases hc : protectedNames.contains s with
  | false => rfl
  | true => rw [lower_protected hc] at h; cases h

theorem getD_range_map (f : Nat → Bool) (n i : Nat) (h : i < n) :
    ((List.range n).map f).getD i false = f i := by
  rw [List.getD_eq_getElem?_getD, List.getElem?_map, List.getElem?_range h]
  rfl

/- ================================================================= -/
/- Claim theorems. -/

/-- C10: `minimal_clean_with_dates` writes a table with exactly the same
column names, in the same order, as the input after duplicate removal (which
itself never touches the columns): no column is renamed or dropped by any
stage of the minimal pipeline. -/
theorem minimal_clean_preserves_columns (t : Table) :
    (minimalClean t).map Col.name = t.map Col.name := by
  unfold minimalClean
  rw [map_name_eq stage7col_name, map_name_eq stage6col_name, map_name_eq stage5col_name,
    fillYearQtrMonth_name, parseDateCols_name, dropDupRows_name]

/-- C9: the normalizer is idempotent — on a table whose numeric columns have
no missing values, applying `normalize` twice equals applying it once. -/
theorem normalizeTable_idem (t : Table)
    (h : ∀ c ∈ t, c.dtype = Dtype.dnum → ∀ v ∈ c.cells, v ≠ RVal.null) :
    normalizeTable (normalizeTable t) = normalizeTable t := by
  unfold normalizeTable
  rw [List.map_map]
  exact List.map_congr_left fun c _ => normCol_idem c

/-- Witness for C9 at a concrete two-column table. -/
theorem normalizeTable_idem_w :
    normalizeTable (normalizeTable tblNorm) = normalizeTable tblNorm :=
  normalizeTable_idem tblNorm (by decide)

/-- C3: the normalizer maps every present value x of a numeric column to
`(x - min)/(max - min)`, all results landing in `[0, 1]` when the extrema
differ, and maps a column with equal extrema to all zeros. -/
theorem normalize_minmax (t : Table) (c : Col) (hc : c ∈ t)
    (hd : c.dtype = Dtype.dnum) (hp : presents c.cells ≠ []) :
    ∃ c' ∈ normalizeTable t, c'.name = c.name ∧
      ((minList (presents c.cells) = maxList (presents c.cells) →
          c'.cells = c.cells.map fun _ => RVal.num 0) ∧
       (minList (presents c.cells) ≠ maxList (presents c.cells) →
          c'.cells = c.cells.map
              (normMap (minList (presents c.cells)) (maxList (presents c.cells))) ∧
          ∀ y ∈ presents c'.cells, 0 ≤ y ∧ y ≤ 1)) := by
  have hcol : normCol c = { c with cells := normCells c.cells } := by
    unfold normCol
    rw [if_pos hd]
  refine ⟨normCol c, List.mem_map_of_mem normCol hc, normCol_name c, ?_, ?_⟩
  · intro he
    rw [hcol]
    show normCells c.cells = _
    rw [normCells, if_neg hp, if_pos he]
  · intro he
    have hcells : (normCol c).cells
        = c.cells.map (normMap (minList (presents c.cells)) (maxList (presents c.cells))) := by
      rw [hcol]
      show normCells c.cells = _
      rw [normCells, if_neg hp, if_neg he]
    refine ⟨hcells, ?_⟩
    intro y hy
    rw [hcells, presents_map_normMap] at hy
    rcases List.mem_map.mp hy with ⟨x, hx, rfl⟩
    have h1 : minList (presents c.cells) ≤ x := minList_le hx
    have h2 : x ≤ maxList (presents c.cells) := le_maxList hx
    have hlt : minList (presents c.cells) < maxList (presents c.cells) :=
      lt_of_le_of_ne (minList_le_maxList hp) he
    have hpos : (0 : ℚ) < maxList (presents c.cells) - minList (presents c.cells) :=
      sub_pos.mpr hlt
    constructor
    · exact div_nonneg (sub_nonneg.mpr h1) (le_of_lt hpos)
    · rw [div_le_one hpos]
      exact sub_le_sub_right h2 _

/-- Witness for C3 at a concrete non-constant column. -/
theorem normalize_minmax_w :
    ∃ c' ∈ normalizeTable [cA], c'.name = cA.name ∧
      ((minList (presents cA.cells) = maxList (presents cA.cells) →
          c'.cells = cA.cells.map fun _ => RVal.num 0) ∧
       (minList (presents cA.cells) ≠ maxList (presents cA.cells) →
          c'.cells = cA.cells.map
              (normMap (minList (presents cA.cells)) (maxList (presents cA.cells))) ∧
          ∀ y ∈ presents c'.cells, 0 ≤ y ∧ y ≤ 1)) :=
  normalize_minmax [cA] cA (by decide) (by decide) (by decide)

/-- C5 counterexample: the column `monthsigned` contains the substring
`signed`, yet `standardize_dtypes` does not attempt datetime parsing on it
(it string-cleans it as an object column), while `parse_date_columns` does
parse it — so "the column typer parses exactly when the name contains date
or signed" is false of `standardize_dtypes`. -/
theorem signed_not_date_in_standardize :
    standardizeDtypes [⟨"monthsigned", Dtype.dobj, [RVal.txt "2020-01-02"]⟩]
        = [⟨"monthsigned", Dtype.dobj, [RVal.txt "20200102"]⟩] ∧
    parseDateCols [⟨"monthsigned", Dtype.dobj, [RVal.txt "2020-01-02"]⟩]
        = [⟨"monthsigned", Dtype.ddt, [RVal.date ⟨2020, 1, 2⟩]⟩] ∧
    strContainsLower "monthsigned" "signed" = true ∧
    strContainsLower "monthsigned" "date" = false := by
  decide

/-- C5 amended: `parse_date_columns` treats a column as date-like exactly when
its lower-cased name contains `date` or `signed`; `standardize_dtypes`
datetime-parses exactly when the name contains `date` (`signed` is not
checked there), sending other columns to string cleaning or numeric
coercion. -/
theorem date_like_classification :
    (∀ s : String, dateLikeDeepB s
        = (strContainsLower s "date" || strContainsLower s "signed")) ∧
    (∀ t : Table, parseDateCols t = t.map fun c =>
        if dateLikeDeepB c.name then
          { c with dtype := Dtype.ddt, cells := toDatetimeCoerceCells c.cells }
        else c) ∧
    (∀ c : Col, strContainsLower c.name "date" = true →
        stdCol c = { c with dtype := Dtype.ddt, cells := toDatetimeCoerceCells c.cells }) ∧
    (∀ c : Col, strContainsLower c.name "date" = false → c.dtype ≠ Dtype.dobj →
        stdCol c = toNumericIgnoreCol c) := by
  refine ⟨?_, fun _ => rfl, ?_, ?_⟩
  · intro s
    simp [dateLikeDeepB]
  · intro c h
    unfold stdCol
    rw [if_pos h]
  · intro c h hd
    unfold stdCol
    rw [if_neg (by rw [h]; exact Bool.false_ne_true), if_neg hd]

/-- Witness for C5's amended theorem at concrete columns. -/
theorem date_like_classification_w :
    stdCol ⟨"x_date", Dtype.dobj, [RVal.txt "bad"]⟩
        = ⟨"x_date", Dtype.ddt, [RVal.null]⟩ ∧
    stdCol ⟨"size", Dtype.dnum, [RVal.num 3]⟩
        = toNumericIgnoreCol ⟨"size", Dtype.dnum, [RVal.num 3]⟩ := by
  constructor
  · rw [date_like_classification.2.2.1 ⟨"x_date", Dtype.dobj, [RVal.txt "bad"]⟩ (by decide)]
    decide
  · exact date_like_classification.2.2.2 ⟨"size", Dtype.dnum, [RVal.num 3]⟩
      (by decide) (by decide)

/-- C8 counterexample: for the unemployment dataset `main` bypasses
`get_group_keys`; with columns `state, year, rate` the claim predicts the
keys `[state]` (the only candidate present) but the script groups by
`[state, year]`. -/
theorem unemp_keys_counterex :
    unempKeys ["state", "year", "rate"] = ["state", "year"] ∧
    getGroupKeys ["state", "year", "rate"] ["market", "year_quarter"] = ["state"] ∧
    unempKeys ["state", "year", "rate"]
      ≠ getGroupKeys ["state", "year", "rate"] ["market", "year_quarter"] := by
  decide

/-- C8 amended: `get_group_keys` returns exactly the candidates present among
the columns, in the fixed candidate order, falling back to the supplied
defaults only when none is present — and it is used for the leases, occupancy
and price/availability datasets; the unemployment dataset instead uses the
inline rule `[state, year]` when both columns exist, else `[year]`. -/
theorem group_keys_semantics :
    (∀ cols defaults : List String,
        possibleKeys.filter (fun k => cols.contains k) ≠ [] →
        getGroupKeys cols defaults = possibleKeys.filter fun k => cols.contains k) ∧
    (∀ cols defaults : List String,
        possibleKeys.filter (fun k => cols.contains k) = [] →
        getGroupKeys cols defaults = defaults) ∧
    (∀ cols : List String, cols.contains "state" = true → cols.contains "year" = true →
        unempKeys cols = ["state", "year"]) ∧
    (∀ cols : List String, (cols.contains "state" && cols.contains "year") = false →
        unempKeys cols = ["year"]) := by
  refine ⟨?_, ?_, ?_, ?_⟩
  · intro cols defaults h
    unfold getGroupKeys
    rw [if_neg (by simpa [List.isEmpty_iff] using h)]
  · intro cols defaults h
    unfold getGroupKeys
    rw [if_pos (by simpa [List.isEmpty_iff] using h)]
  · intro cols h1 h2
    unfold unempKeys
    rw [if_pos (by rw [h1, h2]; rfl)]
  · intro cols h
    unfold unempKeys
    rw [if_neg (by rw [h]; exact Bool.false_ne_true)]

/-- Witness for C8's amended theorem at concrete column sets. -/
theorem group_keys_semantics_w :
    getGroupKeys ["market", "foo"] ["x"] = ["market"] ∧
    getGroupKeys ["foo"] ["x", "y"] = ["x", "y"] ∧
    unempKeys ["state", "year"] = ["state", "year"] ∧
    unempKeys ["state"] = ["year"] := by
  refine ⟨?_, ?_, ?_, ?_⟩
  · rw [group_keys_semantics.1 ["market", "foo"] ["x"] (by decide)]
    decide
  · exact group_keys_semantics.2.1 ["foo"] ["x", "y"] (by decide)
  · exact group_keys_semantics.2.2.1 ["state", "year"] (by decide) (by decide)
  · exact group_keys_semantics.2.2.2 ["state"] (by decide)

/-- C4 counterexample: a cell that fails numeric coercion does NOT become
missing — with `errors='ignore'` the whole column comes back unchanged and
the value survives as it was. -/
theorem numeric_ignore_counterex :
    toNumericIgnoreCells [RVal.txt "abc", RVal.num 3] = [RVal.txt "abc", RVal.num 3] ∧
    numCoercibleB (RVal.txt "abc") = false ∧
    RVal.txt "abc" ≠ RVal.null := by
  decide

/-- C4 amended: numeric coercion uses `errors='ignore'`, so a column holding
any value that fails coercion is returned entirely unchanged (silently, no
error); date parsing uses `errors='coerce'`, so every cell that fails date
parsing becomes missing. -/
theorem coercion_failure_semantics :
    (∀ cells : List RVal, (∃ v ∈ cells, numCoercibleB v = false) →
        toNumericIgnoreCells cells = cells) ∧
    (∀ (cells : List RVal) (v : RVal), v ∈ cells → dateOf v = none →
        RVal.null ∈ toDatetimeCoerceCells cells) ∧
    (∀ cells : List RVal, toDatetimeCoerceCells cells = cells.map fun v =>
        match dateOf v with
        | some d => RVal.date d
        | none => RVal.null) := by
  refine ⟨?_, ?_, fun _ => rfl⟩
  · intro cells h
    rcases h with ⟨v, hv, hf⟩
    unfold toNumericIgnoreCells
    rw [if_neg]
    intro hall
    rw [List.all_eq_true] at hall
    rw [hall v hv] at hf
    cases hf
  · intro cells v hv hf
    unfold toDatetimeCoerceCells
    refine List.mem_map.mpr ⟨v, hv, ?_⟩
    rw [hf]

/-- Witness for C4's amended theorem at concrete cells. -/
theorem coercion_failure_semantics_w :
    toNumericIgnoreCells [RVal.txt "n/a", RVal.num 7] = [RVal.txt "n/a", RVal.num 7] ∧
    RVal.null ∈ toDatetimeCoerceCells [RVal.txt "hello"] :=
  ⟨coercion_failure_semantics.1 [RVal.txt "n/a", RVal.num 7]
      ⟨RVal.txt "n/a", by decide, by decide⟩,
   coercion_failure_semantics.2.1 [RVal.txt "hello"] (RVal.txt "hello")
      (by decide) (by decide)⟩

/-- C1: in `dynamic_clean_group`, a group whose first `year` cell is not the
number 2018 (or with no `year` column) uses `max(0.2, median(row
completeness) - 0.1)` and `min(0.9, median(column missingness) + 0.1)`; a
2018 group uses the hardcoded `0.4` / `0.6`; rows are kept exactly when
their completeness reaches the row threshold, and exactly the columns whose
missingness stays below the column threshold survive (then get filled). -/
theorem dynamic_group_thresholds (g : Table) (h0 : 0 < nrows g)
    (hwf : ∀ c ∈ g, c.cells.length = nrows g) :
    (yearFirst g ≠ some (RVal.num 2018) →
        rowThresh g = max (1/5 : ℚ) (median (rList g) - 1/10) ∧
        colThresh g = min (9/10 : ℚ) (median (mList g) + 1/10)) ∧
    (yearFirst g = some (RVal.num 2018) →
        rowThresh g = 2/5 ∧ colThresh g = 3/5) ∧
    ((dynamicCleanGroup g).map Col.name
        = (g.filter fun c => decide (missFrac c < colThresh g)).map Col.name) ∧
    (∀ c ∈ g, missFrac c < colThresh g →
        ∃ c' ∈ dynamicCleanGroup g, c'.name = c.name ∧
          c'.cells = (fillCol { c with cells := applyMask (keepRowMask g) c.cells }).cells) ∧
    (∀ i, i < nrows g →
        (keepRowMask g).getD i false = decide (rowThresh g ≤ rowComp g i)) := by
  have hb : ∀ hx : yearFirst g ≠ some (RVal.num 2018), is2018 g = false := by
    intro hx
    unfold is2018
    exact beq_eq_false_iff_ne.mpr hx
  refine ⟨?_, ?_, ?_, ?_, ?_⟩
  · intro hx
    constructor
    · unfold rowThresh
      rw [hb hx, if_neg Bool.false_ne_true]
    · unfold colThresh
      rw [hb hx, if_neg Bool.false_ne_true]
  · intro hx
    have hb2 : is2018 g = true := by
      unfold is2018
      rw [hx]
      exact beq_self_eq_true _
    constructor
    · unfold rowThresh
      rw [hb2, if_pos rfl]
    · unfold colThresh
      rw [hb2, if_pos rfl]
  · rw [dynamicCleanGroup_eq, List.map_map, List.map_map]
    refine List.map_congr_left ?_
    intro c _
    show (fillCol { c with cells := applyMask (keepRowMask g) c.cells }).name = c.name
    rw [fillCol_name]
  · intro c hc hm
    rw [dynamicCleanGroup_eq]
    refine ⟨fillCol { c with cells := applyMask (keepRowMask g) c.cells }, ?_, ?_, rfl⟩
    · exact List.mem_map_of_mem fillCol
        (List.mem_map_of_mem _ (List.mem_filter.mpr ⟨hc, decide_eq_true hm⟩))
    · rw [fillCol_name]
  · intro i hi
    unfold keepRowMask
    exact getD_range_map _ _ i hi

/-- Witness for C1 at a concrete 2018 group. -/
theorem dynamic_group_thresholds_w :
    (yearFirst gYr ≠ some (RVal.num 2018) →
        rowThresh gYr = max (1/5 : ℚ) (median (rList gYr) - 1/10) ∧
        colThresh gYr = min (9/10 : ℚ) (median (mList gYr) + 1/10)) ∧
    (yearFirst gYr = some (RVal.num 2018) →
        rowThresh gYr = 2/5 ∧ colThresh gYr = 3/5) ∧
    ((dynamicCleanGroup gYr).map Col.name
        = (gYr.filter fun c => decide (missFrac c < colThresh gYr)).map Col.name) ∧
    (∀ c ∈ gYr, missFrac c < colThresh gYr →
        ∃ c' ∈ dynamicCleanGroup gYr, c'.name = c.name ∧
          c'.cells = (fillCol { c with cells := applyMask (keepRowMask gYr) c.cells }).cells) ∧
    (∀ i, i < nrows gYr →
        (keepRowMask gYr).getD i false = decide (rowThresh gYr ≤ rowComp gYr i)) :=
  dynamic_group_thresholds gYr (by decide) (by decide)

/-- C2 counterexample: on `tblOutlier`, row 3 (0-based) passes every
column's independently computed bounds (`keepRowIndep` is true for it), yet
the sequential filter of `remove_outliers` drops it: after column `a`
removes the extreme row, column `b`'s quartiles tighten and `10` falls
outside them — so the keep-iff-independent-bounds claim is false. -/
theorem remove_outliers_seq_counterex :
    keepRowIndep tblOutlier 3 = true ∧
    removeOutliers tblOutlier
      = [⟨"a", Dtype.dnum, [RVal.num 0, RVal.num 0, RVal.num 0]⟩,
         ⟨"b", Dtype.dnum, [RVal.num 0, RVal.num 0, RVal.num 0]⟩] ∧
    removeOutliersIndep tblOutlier
      = [⟨"a", Dtype.dnum, [RVal.num 0, RVal.num 0, RVal.num 0, RVal.num 0]⟩,
         ⟨"b", Dtype.dnum, [RVal.num 0, RVal.num 0, RVal.num 0, RVal.num 10]⟩] ∧
    removeOutliers tblOutlier ≠ removeOutliersIndep tblOutlier :=
  of_decide_eq_true (by with_unfolding_all rfl)

/-- C2 amended: `remove_outliers` filters sequentially — one numeric column
at a time, each column's quartile bounds computed on the table as already
filtered by the preceding columns; the rows it keeps form a subsequence of
the input, and each filtering step keeps exactly the values inside that
step's bounds. -/
theorem remove_outliers_sequential :
    (∀ t : Table, removeOutliers t = removeOutliersAux (numericNames t) t) ∧
    (∀ (t : Table) (n : String) (ns : List String),
        removeOutliersAux (n :: ns) t = removeOutliersAux ns (filterByCol n t)) ∧
    (∀ (t : Table) (c : Col), c ∈ removeOutliers t →
        ∃ c₀ ∈ t, c₀.name = c.name ∧ c₀.dtype = c.dtype ∧ c.cells.Sublist c₀.cells) ∧
    (∀ (lo hi : ℚ) (cells : List RVal) (q : ℚ),
        RVal.num q ∈ applyMask (cells.map (cellInB lo hi)) cells → lo ≤ q ∧ q ≤ hi) :=
  ⟨fun _ => rfl, fun _ _ _ => rfl,
   fun t c hc => removeOutliersAux_mem (numericNames t) t c hc,
   fun lo hi cells q h => mem_applyMask_map_bounds lo hi cells q h⟩

/-- Witness for C2's amended theorem on the concrete outlier table. -/
theorem remove_outliers_sequential_w :
    ∃ c₀ ∈ tblOutlier, c₀.name = cOutA.name ∧ c₀.dtype = cOutA.dtype ∧
      cOutA.cells.Sublist c₀.cells :=
  remove_outliers_sequential.2.2.1 tblOutlier cOutA
    (of_decide_eq_true (by with_unfolding_all rfl))

/-- C6 counterexample: a numeric column that is entirely missing survives the
minimal pipeline with its missing values intact — `median()` of an all-NaN
column is NaN and `fillna(NaN)` is a no-op, and the pipeline never drops
rows or columns — so "every numeric cell of the output is non-missing"
fails. -/
theorem minimal_missing_numeric_counterex :
    ∃ c ∈ minimalClean tblAllNull, c.dtype = Dtype.dnum ∧ RVal.null ∈ c.cells :=
  of_decide_eq_true (by with_unfolding_all rfl)

/-- Helper for C6: in the minimal pipeline every numeric output column that
is not a protected time column and is well formed (numeric-or-missing cells)
is either entirely missing or has no missing cell at all. -/
theorem minimal_clean_dichotomy (t : Table) (c : Col) (hc : c ∈ minimalClean t)
    (hd : c.dtype = Dtype.dnum)
    (hp : protectedNames.contains (lowerStr c.name) = false)
    (hwf : ∀ v ∈ c.cells, numOrNullB v = true)
    (hex : ∃ v ∈ c.cells, v ≠ RVal.null) :
    ∀ v ∈ c.cells, v ≠ RVal.null := by
  unfold minimalClean at hc
  rcases List.mem_map.mp hc with ⟨c6, hc6, rfl⟩
  rcases List.mem_map.mp hc6 with ⟨c5, hc5, rfl⟩
  rcases List.mem_map.mp hc5 with ⟨c4, _, rfl⟩
  have hpl : protectedNames.contains (lowerStr c4.name) = false := by
    rw [stage7col_name, stage6col_name, stage5col_name] at hp
    exact hp
  have hcond7 : ¬ (protectedNames.contains (stage6col (stage5col c4)).name = true) := by
    rw [stage6col_name, stage5col_name]
    intro habs
    have h2 := lower_protected habs
    rw [h2] at hpl
    cases hpl
  have h7 : stage7col (stage6col (stage5col c4)) = stage6col (stage5col c4) := by
    unfold stage7col
    exact if_neg hcond7
  have hd6 : (stage6col (stage5col c4)).dtype = Dtype.dnum := by
    rw [← h7]
    exact hd
  have hd4 : c4.dtype = Dtype.dnum := by
    rw [stage6col_dtype, stage5col_dtype] at hd6
    exact hd6
  have h6 : stage6col (stage5col c4) = stage5col c4 := by
    unfold stage6col
    apply if_neg
    rw [stage5col_dtype, hd4]
    intro habs
    cases habs
  have h5 : stage5col c4 = { c4 with cells := fillMedianCells c4.cells } := by
    unfold stage5col
    apply if_pos
    exact ⟨hd4, fun habs => Bool.noConfusion (habs.symm.trans hpl)⟩
  have heq : stage7col (stage6col (stage5col c4))
      = { c4 with cells := fillMedianCells c4.cells } := by
    rw [h7, h6, h5]
  rw [heq] at hwf hex ⊢
  show ∀ v ∈ fillMedianCells c4.cells, v ≠ RVal.null
  have hwf' : ∀ v ∈ fillMedianCells c4.cells, numOrNullB v = true := hwf
  have hex' : ∃ v ∈ fillMedianCells c4.cells, v ≠ RVal.null := hex
  by_cases hps : presents c4.cells = []
  · -- with no value present, the fill is a no-op; but then a well-formed
    -- non-missing cell would contradict the emptiness of `presents`
    have hfill : fillMedianCells c4.cells = c4.cells := by
      rw [fillMedianCells, if_pos hps]
    rw [hfill] at hwf' hex' ⊢
    rcases hex' with ⟨v, hv, hvn⟩
    have hn := hwf' v hv
    cases v with
    | num q =>
        exfalso
        have hq : q ∈ presents c4.cells :=
          List.mem_filterMap.mpr ⟨RVal.num q, hv, rfl⟩
        rw [hps] at hq
        cases hq
    | null => exact absurd rfl hvn
    | txt s => cases hn
    | date d => cases hn
  · have hfill : fillMedianCells c4.cells
        = c4.cells.map fun v =>
            if v = RVal.null then RVal.num (median (presents c4.cells)) else v := by
      rw [fillMedianCells, if_neg hps]
    rw [hfill]
    intro v hv
    rcases List.mem_map.mp hv with ⟨u, _, rfl⟩
    by_cases hu : u = RVal.null
    · rw [if_pos hu]
      intro habs
      cases habs
    · rw [if_neg hu]
      exact hu

/-- C7 counterexample: with no parsed datetime column the function returns
early — a missing `year` stays missing instead of being set to 0. -/
theorem fill_yqm_no_dtcols_counterex :
    fillYearQtrMonth [⟨"year", Dtype.dnum, [RVal.null]⟩]
        = [⟨"year", Dtype.dnum, [RVal.null]⟩] ∧
    RVal.null ≠ RVal.num 0 := by
  decide

/-- C7 amended: provided at least one parsed datetime column exists, each
present year/quarter/month column (with numeric-or-missing cells) is rebuilt
cell by cell: a present value is integer-truncated, a missing one is filled
from the matching field of the row's first valid date (scanning datetime
columns in column order) or with 0 when the row has no valid date; no
missing cell remains, and a date's quarter lies in 1..4.  With no datetime
column the function returns the table unchanged. -/
theorem fill_yqm_with_dates (t : Table) (hdt : dtColsOf t ≠ [])
    (c : Col) (hc : c ∈ t)
    (hn : c.name = "year" ∨ c.name = "quarter" ∨ c.name = "month")
    (hwf : ∀ v ∈ c.cells, numOrNullB v = true) :
    ∃ c' ∈ fillYearQtrMonth t, c'.name = c.name ∧ c'.dtype = c.dtype ∧
      c'.cells.length = c.cells.length ∧
      (∀ v ∈ c'.cells, v ≠ RVal.null) ∧
      (∀ i : Nat, c'.cells.get? i = (c.cells.get? i).map (specFillVal t (yqmField c.name) i)) ∧
      (∀ d : DateVal, 1 ≤ d.month → d.month ≤ 12 → 1 ≤ quarterOf d ∧ quarterOf d ≤ 4) := by
  have hmem : yqmCol t c ∈ fillYearQtrMonth t := by
    unfold fillYearQtrMonth
    rw [if_neg hdt]
    exact List.mem_map_of_mem (yqmCol t) hc
  have hcells : (yqmCol t c).cells = yqmTransform t (yqmField c.name) c.cells := by
    rcases hn with hn | hn | hn <;>
      · unfold yqmCol
        rw [hn]
        simp [yqmField]
  refine ⟨yqmCol t c, hmem, yqmCol_name t c, ?_, ?_, ?_, ?_, ?_⟩
  · rcases hn with hn | hn | hn <;>
      · unfold yqmCol
        rw [hn]
        simp
  · rw [hcells, yqmTransform_length]
  · rw [hcells]
    exact yqmTransform_ne_null t (yqmField c.name) c.cells hwf
  · intro i
    rw [hcells]
    exact yqmTransform_get? t (yqmField c.name) c.cells hwf i
  · intro d h1 h2
    unfold quarterOf
    omega

/-- Witness for C7's amended theorem on a concrete table with one datetime
column. -/
theorem fill_yqm_with_dates_w :
    ∃ c' ∈ fillYearQtrMonth tblDate, c'.name = cYear.name ∧ c'.dtype = cYear.dtype ∧
      c'.cells.length = cYear.cells.length ∧
      (∀ v ∈ c'.cells, v ≠ RVal.null) ∧
      (∀ i : Nat, c'.cells.get? i
          = (cYear.cells.get? i).map (specFillVal tblDate (yqmField cYear.name) i)) ∧
      (∀ d : DateVal, 1 ≤ d.month → d.month ≤ 12 → 1 ≤ quarterOf d ∧ quarterOf d ≤ 4) :=
  fill_yqm_with_dates tblDate (by decide) cYear (by decide) (Or.inl rfl) (by decide)

theorem mem_applyMask_map_pred (p : RVal → Bool) :
    ∀ (cells : List RVal) (v : RVal), v ∈ applyMask (cells.map p) cells → p v = true := by
  intro cells
  induction cells with
  | nil => intro v h; rw [applyMask_nil] at h; cases h
  | cons u us ih =>
      intro v h
      rw [List.map_cons, applyMask_cons] at h
      cases hb : p u with
      | false =>
          rw [hb] at h
          simp only [if_neg Bool.false_ne_true] at h
          exact ih v h
      | true =>
          rw [hb] at h
          simp only [if_pos rfl] at h
          rcases List.mem_cons.mp h with rfl | h'
          · exact hb
          · exact ih v h'

theorem applyMaskTable_names (mask : List Bool) (t : Table) :
    (applyMaskTable mask t).map Col.name = t.map Col.name := by
  unfold applyMaskTable
  exact @map_name_eq (fun c => { c with cells := applyMask mask c.cells })
    (fun c => rfl) t

theorem filterByCol_names (n : String) (t : Table) :
    (filterByCol n t).map Col.name = t.map Col.name := by
  unfold filterByCol
  split
  · rfl
  · split
    · exact applyMaskTable_names _ t
    · exact applyMaskTable_names _ t

theorem find?_name {n : String} {t : Table} {c₀ : Col}
    (h : t.find? (fun c => c.name == n) = some c₀) : c₀ ∈ t ∧ c₀.name = n := by
  have h1 := List.find?_some h
  have h2 := List.mem_of_find?_eq_some h
  exact ⟨h2, by simpa using h1⟩

theorem nodup_name_inj {t : Table} (hN : (t.map Col.name).Nodup)
    {a b : Col} (ha : a ∈ t) (hb : b ∈ t) (hab : a.name = b.name) : a = b :=
  List.inj_on_of_nodup_map hN ha hb hab

theorem filterByCol_target_no_null {n : String} {t : Table}
    (hN : (t.map Col.name).Nodup) :
    ∀ c₁ ∈ filterByCol n t, c₁.name = n → ∀ v ∈ c₁.cells, v ≠ RVal.null := by
  intro c₁ hc₁ hname v hv
  unfold filterByCol at hc₁
  split at hc₁
  · rename_i hf
    have := List.find?_eq_none.mp hf c₁ hc₁
    simp [hname] at this
  · rename_i c₀ hf
    obtain ⟨hc₀mem, hc₀name⟩ := find?_name hf
    split at hc₁
    · rcases List.mem_map.mp hc₁ with ⟨c₂, hc₂, rfl⟩
      have he : c₂ = c₀ := nodup_name_inj hN hc₂ hc₀mem (hname.trans hc₀name.symm)
      subst he
      have := mem_applyMask_map_pred (fun _ => false) c₂.cells v hv
      cases this
    · rename_i lo hi hbc
      rcases List.mem_map.mp hc₁ with ⟨c₂, hc₂, rfl⟩
      have he : c₂ = c₀ := nodup_name_inj hN hc₂ hc₀mem (hname.trans hc₀name.symm)
      subst he
      have hp := mem_applyMask_map_pred (cellInB lo hi) c₂.cells v hv
      intro habs
      subst habs
      cases hp

theorem aux_no_null :
    ∀ (ns : List String) (t : Table), (t.map Col.name).Nodup →
      ∀ c ∈ removeOutliersAux ns t, c.name ∈ ns → ∀ v ∈ c.cells, v ≠ RVal.null := by
  intro ns
  induction ns with
  | nil => intro t _ c _ hcn; cases hcn
  | cons n ns ih =>
      intro t hN c hc hcn v hv
      have hN' : ((filterByCol n t).map Col.name).Nodup := by
        rw [filterByCol_names]
        exact hN
      rcases List.mem_cons.mp hcn with heq | hmem
      · rcases removeOutliersAux_mem ns (filterByCol n t) c hc with ⟨c₁, hc₁, hn1, _, hs⟩
        exact filterByCol_target_no_null hN c₁ hc₁ (hn1.trans heq) v (hs.subset hv)
      · exact ih (filterByCol n t) hN' c hc hmem v hv

theorem normCol_dtype (c : Col) : (normCol c).dtype = c.dtype := by
  unfold normCol
  split <;> rfl

theorem normCells_no_null {cells : List RVal} (h : ∀ v ∈ cells, v ≠ RVal.null) :
    ∀ v ∈ normCells cells, v ≠ RVal.null := by
  intro v hv
  unfold normCells at hv
  split at hv
  · exact h v hv
  · split at hv
    · rcases List.mem_map.mp hv with ⟨u, _, rfl⟩
      simp
    · rcases List.mem_map.mp hv with ⟨u, hu, rfl⟩
      have hne := h u hu
      cases u with
      | num q => simp [normMap]
      | null => exact absurd rfl hne
      | txt s => simp [normMap]
      | date d => simp [normMap]

/-- C6 amended: the no-missing-numeric guarantee holds with provisos.  In the
dynamic pipeline the outlier filter already drops every row with a missing
value in a numeric column, so the outlier-filtered and normalized output has
no missing numeric cell (given distinct column labels).  In the minimal
pipeline a numeric non-time column is fully median-filled only when at least
one value is present — an all-missing column keeps its missing cells (the
counterexample), and year/quarter/month are 0-filled only when a parsed date
column exists. -/
theorem clean_numeric_no_missing :
    (∀ (t : Table) (c : Col), c ∈ minimalClean t → c.dtype = Dtype.dnum →
        protectedNames.contains (lowerStr c.name) = false →
        (∀ v ∈ c.cells, numOrNullB v = true) → (∃ v ∈ c.cells, v ≠ RVal.null) →
        ∀ v ∈ c.cells, v ≠ RVal.null) ∧
    (∀ t : Table, (t.map Col.name).Nodup →
        ∀ c ∈ normalizeTable (removeOutliers t), c.dtype = Dtype.dnum →
          ∀ v ∈ c.cells, v ≠ RVal.null) := by
  constructor
  · exact fun t c hc hd hp hwf hex => minimal_clean_dichotomy t c hc hd hp hwf hex
  · intro t hN c hc hd v hv
    rcases List.mem_map.mp hc with ⟨c₁, hc₁, rfl⟩
    have hd1 : c₁.dtype = Dtype.dnum := by
      rw [← normCol_dtype]
      exact hd
    have hname : c₁.name ∈ numericNames t := by
      rcases removeOutliersAux_mem (numericNames t) t c₁ hc₁ with ⟨c₀, hc₀, hn0, hdt0, _⟩
      unfold numericNames
      refine List.mem_map.mpr ⟨c₀, List.mem_filter.mpr ⟨hc₀, ?_⟩, hn0⟩
      simp [hdt0, hd1]
    have hnonull : ∀ w ∈ c₁.cells, w ≠ RVal.null :=
      aux_no_null (numericNames t) t hN c₁ hc₁ hname
    have hcells : (normCol c₁).cells = normCells c₁.cells := by
      unfold normCol
      rw [if_pos hd1]
    rw [hcells] at hv
    exact normCells_no_null hnonull v hv

/-- Witness for C6's amended theorem: one concrete column through each
pipeline. -/
theorem clean_numeric_no_missing_w :
    (∀ v ∈ cPay.cells, v ≠ RVal.null) ∧ (∀ v ∈ cOutA.cells, v ≠ RVal.null) :=
  ⟨clean_numeric_no_missing.1 tblPay cPay
      (of_decide_eq_true (by with_unfolding_all rfl)) rfl (by decide) (by decide)
      ⟨RVal.num 1, by decide, by decide⟩,
   clean_numeric_no_missing.2 tblOutlier (by decide) cOutA
      (of_decide_eq_true (by with_unfolding_all rfl)) rfl⟩
